import Mathlib

/-!
Verification of the Lab5 e-cash driver (src/Lab5/driver.js): coin parsing,
merchant acceptance (`acceptCoin`) and double-spend adjudication
(`determineCheater`).  Byte strings are embedded as lists of naturals.
The helper modules coin.js and utils.js are not among the sources; the
definitions they would provide are modelled from the specification and say
so in their doc comments.
-/

namespace ECash

/-- Byte strings (JS strings and Buffers) modelled as lists of naturals. -/
abbrev Bytes := List Nat

/-- Modelled from the spec: `utils.decryptOTP` (utils.js is absent from the
sources) XORs two byte strings; of the two length policies the spec allows we
take the minimum-length one, so the result is the pointwise XOR over the
common length. -/
def xorBytes (a b : Bytes) : Bytes := List.zipWith (fun x y => x ^^^ y) a b

/-- Modelled from the spec: coin.js is absent from the sources; `IDENT_STR` is
the fixed identity marker, which the spec names as the ASCII word IDENT. -/
def IDENT_STR : Bytes := [73, 68, 69, 78, 84]

/-- Modelled from the spec: coin.js is absent from the sources; `BANK_STR` is
the fixed bank tag that opens every canonical coin string (a fixed ASCII
word, the concrete letters are immaterial to every claim). -/
def BANK_STR : Bytes := [66, 65, 78, 75]

/-- Modelled from the spec: coin.js is absent from the sources; the fixed
number of split indices, which the spec fixes at 3. -/
def COIN_RIS_LENGTH : Nat := 3

/-- Modelled from the spec: the identity tag is the fixed marker, a delimiter
(ASCII colon, byte 58) and then the owner identity. -/
def identityTag (owner : Bytes) : Bytes := IDENT_STR ++ 58 :: owner

/-- The fixed part of every identity tag: the marker together with the
delimiter, i.e. everything that comes before the identity payload.  This
definition follows the spec wording for the claims that speak about the
remainder of an XOR result after the fixed part of the tag. -/
def tagMarker : Bytes := IDENT_STR ++ [58]

/-- JS `String.prototype.split` with a one-byte separator: always returns at
least one field, empty fields included (`"".split` gives one empty field). -/
def splitOnByte (sep : Nat) : Bytes → List Bytes
  | [] => [[]]
  | c :: rest =>
    match splitOnByte sep rest with
    | [] => [[c]]
    | f :: fs => if c = sep then [] :: f :: fs else (c :: f) :: fs

/-- JS `Array.prototype.join` with a comma, on byte strings. -/
def joinComma : List Bytes → Bytes
  | [] => []
  | [a] => a
  | a :: b :: t => a ++ 44 :: joinComma (b :: t)

/-- `parseCoin` of driver.js lines 34-42: split the string on dashes, check
the leading field against the bank tag (throwing carries the received tag),
and split each of the two hash fields on commas, a missing or empty field
giving an empty array (JS truthiness of the field). -/
def parseCoin (s : Bytes) : Except Bytes (List Bytes × List Bytes) :=
  let fields := splitOnByte 45 s
  let cnst := fields.getD 0 []
  if cnst = BANK_STR then
    let lh := match fields.get? 3 with
      | none => []
      | some f => if f = [] then [] else splitOnByte 44 f
    let rh := match fields.get? 4 with
      | none => []
      | some f => if f = [] then [] else splitOnByte 44 f
    .ok (lh, rh)
  else .error cnst

/-- The coin record as the driver uses it: identifier, face value, signature,
the two private share sequences, and the canonical string (the coinString
field that `toString` returns in coin.js). -/
structure Coin where
  guid : Bytes
  amount : Bytes
  signature : Bytes
  leftIdent : List Bytes
  rightIdent : List Bytes
  coinString : Bytes

/-- Modelled from the spec: `Coin.getRis` (coin.js is absent from the
sources) returns the stored share of the requested side at the requested
index, an out-of-range index giving JS undefined, here `none`. -/
def Coin.getRis (c : Coin) (isLeft : Bool) (i : Nat) : Option Bytes :=
  (if isLeft then c.leftIdent else c.rightIdent).get? i

/-- Modelled from the spec: the coin constructor (coin.js is absent from the
sources).  For each split index a fresh random key is drawn (supplied here as
the list `keys`); the left share is the key, the right share is the OTP
encryption of the identity tag under that key, so that the XOR of the two
shares at an index is the identity tag.  The commitments are the hashes of
the shares and the canonical string is the dash-delimited encoding of tag,
amount, guid and the two comma-joined hash lists. -/
def mkCoin (owner amount guid sig : Bytes) (keys : List Bytes)
    (hash : Bytes → Bytes) : Coin :=
  let left := keys
  let right := keys.map (fun k => xorBytes (identityTag owner) k)
  let lh := left.map hash
  let rh := right.map hash
  ⟨guid, amount, sig, left, right,
    BANK_STR ++ 45 :: (amount ++ 45 :: (guid ++ 45 ::
      (joinComma lh ++ 45 :: joinComma rh)))⟩

/-- The errors `acceptCoin` can throw, with exactly the data interpolated
into each thrown message in driver.js: the invalid-tag error carries the
received tag (line 37), the count error both lengths (line 71), the missing
share error the index and side (line 91), and the RIS hash mismatch error
the index together with the expected and the computed hash (line 96) -
notably not the side. -/
inductive AcceptError
  | invalidSignature
  | invalidTag (received : Bytes)
  | badHashCount (l r : Nat)
  | missingShare (i : Nat) (isLeft : Bool)
  | risHashMismatch (i : Nat) (expected got : Bytes)
deriving DecidableEq, Repr

/-- Outcomes the adjudicator reports on the console. -/
inductive Verdict
  | merchantCheating (guid : Bytes)
  | spenderCheating (guid : Bytes) (ident : Bytes)
  | inconclusive (guid : Bytes)
deriving DecidableEq, Repr

/-- The RIS loop of `acceptCoin` (driver.js lines 83-100) over an explicit
list of indices, also recording each share request (side, index) made to the
coin.  At an index the selected commitment is looked up, the share is
requested, a falsy share (JS undefined or empty) throws the missing-share
error, a hash mismatch throws the mismatch error, otherwise the share is
appended and the loop continues. -/
def risLoop (hash : Bytes → Bytes) (isLeft : Bool) (c : Coin)
    (sel : List Bytes) :
    List Nat → Except AcceptError (List Bytes) × List (Bool × Nat)
  | [] => (.ok [], [])
  | i :: is =>
    match c.getRis isLeft i with
    | none => (.error (.missingShare i isLeft), [(isLeft, i)])
    | some p =>
      if p = [] then (.error (.missingShare i isLeft), [(isLeft, i)])
      else if hash p = sel.getD i [] then
        ((risLoop hash isLeft c sel is).1.map (fun l => p :: l),
         (isLeft, i) :: (risLoop hash isLeft c sel is).2)
      else
        (.error (.risHashMismatch i (sel.getD i []) (hash p)), [(isLeft, i)])

/-- `acceptCoin` of driver.js lines 52-106, with the blind-signature `verify`
of the external library and the `hash` of the absent utils.js passed as
functions, and the random draw of line 80 passed as the boolean `isLeft`.
Returns the result together with the list of share requests made.  Order as
in the source: signature verification first, then parsing, then the
hash-count check, then the RIS loop over the `COIN_RIS_LENGTH` indices. -/
def acceptCoinT (verify : Bytes → Bytes → Bool) (hash : Bytes → Bytes)
    (isLeft : Bool) (c : Coin) :
    Except AcceptError (List Bytes) × List (Bool × Nat) :=
  if verify c.signature c.coinString then
    match parseCoin c.coinString with
    | .error t => (.error (.invalidTag t), [])
    | .ok (lh, rh) =>
      if lh.length = COIN_RIS_LENGTH ∧ rh.length = COIN_RIS_LENGTH then
        risLoop hash isLeft c (if isLeft then lh else rh)
          (List.range COIN_RIS_LENGTH)
      else (.error (.badHashCount lh.length rh.length), [])
  else (.error .invalidSignature, [])

/-- The value `acceptCoin` returns (or the error it throws). -/
def acceptCoin (verify : Bytes → Bytes → Bool) (hash : Bytes → Bytes)
    (isLeft : Bool) (c : Coin) : Except AcceptError (List Bytes) :=
  (acceptCoinT verify hash isLeft c).1

/-- The scan of `determineCheater` (driver.js lines 124-138) over an explicit
list of indices: XOR the two shares at the index; if the result starts with
the identity marker, the cheater identity is the result with the marker and
one further byte (the delimiter) removed.  The outer `none` models the
runtime TypeError the source raises when it reads past the end of a RIS
array (`Buffer.from(undefined)`); `some none` is a completed scan that found
nothing. -/
def scanXor (ris1 ris2 : List Bytes) : List Nat → Option (Option Bytes)
  | [] => some none
  | i :: is =>
    match ris1.get? i, ris2.get? i with
    | some a, some b =>
      if IDENT_STR.isPrefixOf (xorBytes a b) then
        some (some ((xorBytes a b).drop (IDENT_STR.length + 1)))
      else scanXor ris1 ris2 is
    | _, _ => none

/-- `determineCheater` of driver.js lines 116-141: identical comma-joins of
the two RIS sequences mean a cheating merchant; otherwise the indices are
scanned and a marker-headed XOR names the spender; a completed scan with no
hit is inconclusive. -/
def determineCheater (guid : Bytes) (ris1 ris2 : List Bytes) :
    Option Verdict :=
  if joinComma ris1 = joinComma ris2 then some (.merchantCheating guid)
  else
    match scanXor ris1 ris2 (List.range COIN_RIS_LENGTH) with
    | none => none
    | some (some ident) => some (.spenderCheating guid ident)
    | some none => some (.inconclusive guid)

/-- One index of the RIS loop succeeds: the requested share exists, is not
falsy, and hashes to the selected commitment at that index. -/
def sharePasses (hash : Bytes → Bytes) (isLeft : Bool) (c : Coin)
    (sel : List Bytes) (j : Nat) : Prop :=
  ∃ q, c.getRis isLeft j = some q ∧ q ≠ [] ∧ hash q = sel.getD j []

/-- A concrete hash function for ground instances: the byte sum folded into
one dash-free, comma-free, nonempty digest byte. -/
def hashW : Bytes → Bytes := fun s => [s.foldl (fun a b => a + b) 0 % 100 + 50]

/-- A concrete hash function for the mismatch instances: the first byte
shifted by 100. -/
def hashShift : Bytes → Bytes := fun s => [s.headD 0 + 100]

/-- The owner identity of the ground coin: the bytes of the word alice. -/
def ownerW : Bytes := [97, 108, 105, 99, 101]

/-- Three concrete per-index keys, each of the identity-tag length 11. -/
def keysW : List Bytes :=
  [[7, 7, 7, 7, 7, 7, 7, 7, 7, 7, 7],
   [1, 2, 3, 4, 5, 6, 7, 8, 9, 10, 11],
   [9, 9, 9, 9, 9, 9, 9, 9, 9, 9, 9]]

/-- The right-hand shares of the ground coin: each key XORed with the tag. -/
def rightW : List Bytes := keysW.map (fun k => xorBytes (identityTag ownerW) k)

/-- The ground coin: owner alice, amount 20, guid g1, honestly constructed. -/
def coinW : Coin := mkCoin ownerW [50, 48] [103, 49] [1, 2] keysW hashW

/-- A coin with every field empty, for instances that never look at them. -/
def emptyCoin : Coin := ⟨[], [], [], [], [], []⟩

/-- A coin whose canonical string is just the bank tag, so parsing succeeds
with two empty hash lists. -/
def bankCoin : Coin := ⟨[], [], [], [], [], BANK_STR⟩

/-- A coin whose two sides hold identical shares and identical commitments,
and whose shares do not hash to the commitments: the hash-mismatch error it
produces is the same whichever side is challenged. -/
def sideCoin : Coin :=
  ⟨[103], [53], [1], [[5], [5], [5]], [[5], [5], [5]],
    BANK_STR ++ [45, 53, 45, 103, 45, 49, 44, 49, 44, 49, 45, 49, 44, 49, 44, 49]⟩

/-- A coin whose first index passes the hash check and whose second index
fails it under `hashShift`: commitments 105, 200, 107 on both sides, shares
5, 6, 7. -/
def mismatchCoin : Coin :=
  ⟨[103], [53], [1], [[5], [6], [7]], [[5], [6], [7]],
    BANK_STR ++ [45, 53, 45, 103, 45] ++ [105, 44, 200, 44, 107] ++ [45] ++
      [105, 44, 200, 44, 107]⟩

/-! Helper lemmas about splitting, joining and XOR. -/

theorem splitOnByte_ne_nil (sep : Nat) (s : Bytes) : splitOnByte sep s ≠ [] := by
  induction s with
  | nil => simp [splitOnByte]
  | cons c rest ih =>
    cases h : splitOnByte sep rest with
    | nil => exact absurd h ih
    | cons f fs =>
      rw [splitOnByte, h]
      by_cases hc : c = sep <;> simp [hc]

theorem splitOnByte_not_mem {sep : Nat} {s : Bytes} (h : sep ∉ s) :
    splitOnByte sep s = [s] := by
  induction s with
  | nil => rfl
  | cons c rest ih =>
    have hc : c ≠ sep := fun hcs => h (hcs ▸ List.mem_cons_self c rest)
    have hr : sep ∉ rest := fun hm => h (List.mem_cons_of_mem c hm)
    rw [splitOnByte, ih hr]
    simp [hc]

theorem splitOnByte_append {sep : Nat} (a b : Bytes) (h : sep ∉ a) :
    splitOnByte sep (a ++ sep :: b) = a :: splitOnByte sep b := by
  induction a with
  | nil =>
    cases hb : splitOnByte sep b with
    | nil => exact absurd hb (splitOnByte_ne_nil sep b)
    | cons f fs =>
      rw [List.nil_append, splitOnByte, hb]
      simp [hb]
  | cons c a ih =>
    have hc : c ≠ sep := fun hcs => h (hcs ▸ List.mem_cons_self c a)
    have ha : sep ∉ a := fun hm => h (List.mem_cons_of_mem c hm)
    rw [List.cons_append, splitOnByte, ih ha]
    simp [hc]

theorem joinComma_cons (a : Bytes) (t : List Bytes) :
    joinComma (a :: t) = a ++ (if t = [] then [] else 44 :: joinComma t) := by
  cases t with
  | nil => simp [joinComma]
  | cons b t2 => simp [joinComma]

theorem not_mem_joinComma {c : Nat} (hc : c ≠ 44) :
    ∀ {l : List Bytes}, (∀ x ∈ l, c ∉ x) → c ∉ joinComma l := by
  intro l
  induction l with
  | nil => intro _ h; simp [joinComma] at h
  | cons a t ih =>
    intro hall hmem
    rw [joinComma_cons] at hmem
    rcases List.mem_append.mp hmem with h | h
    · exact hall a (List.mem_cons_self a t) h
    · by_cases ht : t = []
      · simp [ht] at h
      · simp only [if_neg ht, List.mem_cons] at h
        rcases h with h | h
        · exact hc h
        · exact ih (fun x hx => hall x (List.mem_cons_of_mem a hx)) h

theorem joinComma_cons_ne_nil {a : Bytes} (ha : a ≠ []) (t : List Bytes) :
    joinComma (a :: t) ≠ [] := by
  rw [joinComma_cons]
  intro h
  exact ha (List.append_eq_nil.mp h).1

theorem splitOnByte_joinComma :
    ∀ {l : List Bytes}, l ≠ [] → (∀ x ∈ l, (44 : Nat) ∉ x) →
      splitOnByte 44 (joinComma l) = l := by
  intro l
  induction l with
  | nil => intro h _; exact absurd rfl h
  | cons a t ih =>
    intro _ hall
    cases t with
    | nil =>
      have hj : joinComma [a] = a := rfl
      rw [hj, splitOnByte_not_mem (hall a (List.mem_cons_self a []))]
    | cons b t2 =>
      have hja : (44 : Nat) ∉ a := hall a (List.mem_cons_self _ _)
      have hj : joinComma (a :: b :: t2) = a ++ 44 :: joinComma (b :: t2) := rfl
      rw [hj, splitOnByte_append a _ hja,
        ih (by simp) (fun x hx => hall x (List.mem_cons_of_mem a hx))]

theorem xorBytes_length (a b : Bytes) :
    (xorBytes a b).length = min a.length b.length := by
  simp [xorBytes]

theorem xorBytes_comm (a b : Bytes) : xorBytes a b = xorBytes b a := by
  unfold xorBytes
  exact List.zipWith_comm_of_comm _ (fun x y => Nat.xor_comm x y) a b

theorem xorBytes_cancel :
    ∀ (k t : Bytes), k.length = t.length → xorBytes k (xorBytes t k) = t := by
  intro k
  induction k with
  | nil =>
    intro t ht
    cases t with
    | nil => rfl
    | cons t0 ts => simp at ht
  | cons v k ih =>
    intro t ht
    cases t with
    | nil => simp at ht
    | cons t0 ts =>
      have ht2 : k.length = ts.length := by simpa using ht
      simp only [xorBytes, List.zipWith]
      congr 1
      · rw [Nat.xor_comm t0 v, ← Nat.xor_assoc, Nat.xor_self, Nat.zero_xor]
      · exact ih ts ht2

theorem xor_ne_of_ne_zero {a : Nat} (ha : a ≠ 0) (v : Nat) : a ^^^ v ≠ v := by
  intro h
  apply ha
  have h2 := congrArg (fun x => x ^^^ v) h
  simpa [Nat.xor_assoc] using h2

theorem isPrefixOf_append_self : ∀ (a b : Bytes), a.isPrefixOf (a ++ b) = true := by
  intro a b
  induction a with
  | nil => simp [List.isPrefixOf]
  | cons c a ih => simp [List.isPrefixOf, ih]

theorem identityTag_marker_drop (o : Bytes) :
    (identityTag o).drop (IDENT_STR.length + 1) = o := rfl

theorem identityTag_isPrefixOf (o : Bytes) :
    IDENT_STR.isPrefixOf (identityTag o) = true := by
  have h : identityTag o = IDENT_STR ++ (58 :: o) := rfl
  rw [h]
  exact isPrefixOf_append_self _ _

theorem identityTag_eq_marker_append (o : Bytes) :
    identityTag o = tagMarker ++ o := rfl

theorem rangeRIS : List.range COIN_RIS_LENGTH = [0, 1, 2] := rfl

/-! Helper lemmas about the RIS loop. -/

theorem risLoop_all_ok (hash : Bytes → Bytes) (b : Bool) (c : Coin)
    (sel : List Bytes) :
    ∀ is : List Nat, (∀ i ∈ is, sharePasses hash b c sel i) →
      risLoop hash b c sel is =
        (.ok (is.map (fun i => (c.getRis b i).getD [])),
         is.map (fun i => (b, i))) := by
  intro is
  induction is with
  | nil => intro _; rfl
  | cons i is ih =>
    intro hall
    obtain ⟨p, hp, hne, hhash⟩ := hall i (List.mem_cons_self i is)
    simp only [risLoop, hp]
    rw [if_neg hne, if_pos hhash,
      ih (fun j hj => hall j (List.mem_cons_of_mem _ hj))]
    simp [Except.map, hp]

theorem risLoop_ok_inv (hash : Bytes → Bytes) (b : Bool) (c : Coin)
    (sel : List Bytes) :
    ∀ (is : List Nat) (ris : List Bytes),
      (risLoop hash b c sel is).1 = .ok ris →
      ris.length = is.length ∧
      ∀ j i, is.get? j = some i → ris.get? j = c.getRis b i := by
  intro is
  induction is with
  | nil =>
    intro ris h
    simp only [risLoop] at h
    cases h
    constructor
    · rfl
    · intro j i hj
      simp at hj
  | cons i is ih =>
    intro ris h
    cases hp : c.getRis b i with
    | none => simp [risLoop, hp] at h
    | some p =>
      simp only [risLoop, hp] at h
      by_cases hne : p = []
      · rw [if_pos hne] at h
        simp at h
      · rw [if_neg hne] at h
        by_cases hh : hash p = sel.getD i []
        · rw [if_pos hh] at h
          cases hr : (risLoop hash b c sel is).1 with
          | error e =>
            rw [hr] at h
            simp [Except.map] at h
          | ok l =>
            rw [hr] at h
            simp only [Except.map, Except.ok.injEq] at h
            obtain ⟨hlen, hidx⟩ := ih l hr
            constructor
            · rw [← h]; simp [hlen]
            · intro j i2 hj
              cases j with
              | zero =>
                simp only [List.get?] at hj
                cases hj
                rw [← h]
                simp [hp]
              | succ j =>
                simp only [List.get?] at hj
                rw [← h]
                simpa using hidx j i2 hj
        · rw [if_neg hh] at h
          simp at h

theorem risLoop_fail (hash : Bytes → Bytes) (b : Bool) (c : Coin)
    (sel : List Bytes) {i : Nat} {p : Bytes}
    (hp : c.getRis b i = some p) (hne : p ≠ [])
    (hmis : hash p ≠ sel.getD i []) :
    ∀ is1 is2 : List Nat, (∀ j ∈ is1, sharePasses hash b c sel j) →
      (risLoop hash b c sel (is1 ++ i :: is2)).1 =
        .error (.risHashMismatch i (sel.getD i []) (hash p)) := by
  intro is1
  induction is1 with
  | nil =>
    intro is2 _
    rw [List.nil_append]
    simp only [risLoop, hp]
    rw [if_neg hne, if_neg hmis]
  | cons j is1 ih =>
    intro is2 hall
    obtain ⟨q, hq, hqne, hqh⟩ := hall j (List.mem_cons_self _ _)
    rw [List.cons_append]
    simp only [risLoop, hq]
    rw [if_neg hqne, if_pos hqh]
    have h2 := ih is2 (fun x hx => hall x (List.mem_cons_of_mem _ hx))
    simp [h2, Except.map]

/-! Helper lemmas about honestly constructed coins. -/

theorem parseCoin_mkCoin (owner amount guid sig : Bytes) (keys : List Bytes)
    (hash : Bytes → Bytes)
    (ha : (45 : Nat) ∉ amount) (hg : (45 : Nat) ∉ guid) (hk : keys ≠ [])
    (hL : ∀ k ∈ keys, hash k ≠ [] ∧ (44 : Nat) ∉ hash k ∧ (45 : Nat) ∉ hash k)
    (hR : ∀ k ∈ keys,
      hash (xorBytes (identityTag owner) k) ≠ [] ∧
      (44 : Nat) ∉ hash (xorBytes (identityTag owner) k) ∧
      (45 : Nat) ∉ hash (xorBytes (identityTag owner) k)) :
    parseCoin (mkCoin owner amount guid sig keys hash).coinString =
      .ok (keys.map hash,
        (keys.map (fun k => xorBytes (identityTag owner) k)).map hash) := by
  obtain ⟨k0, kt, rfl⟩ : ∃ k0 kt, keys = k0 :: kt := by
    cases keys with
    | nil => exact absurd rfl hk
    | cons a t => exact ⟨a, t, rfl⟩
  have hb45 : (45 : Nat) ∉ BANK_STR := by decide
  have hlmem : ∀ x ∈ (k0 :: kt).map hash, (45 : Nat) ∉ x := by
    intro x hx
    obtain ⟨k, hk2, rfl⟩ := List.mem_map.mp hx
    exact (hL k hk2).2.2
  have hrmem :
      ∀ x ∈ ((k0 :: kt).map (fun k => xorBytes (identityTag owner) k)).map hash,
        (45 : Nat) ∉ x := by
    intro x hx
    obtain ⟨y, hy, rfl⟩ := List.mem_map.mp hx
    obtain ⟨k, hk2, rfl⟩ := List.mem_map.mp hy
    exact (hR k hk2).2.2
  have hlmem44 : ∀ x ∈ (k0 :: kt).map hash, (44 : Nat) ∉ x := by
    intro x hx
    obtain ⟨k, hk2, rfl⟩ := List.mem_map.mp hx
    exact (hL k hk2).2.1
  have hrmem44 :
      ∀ x ∈ ((k0 :: kt).map (fun k => xorBytes (identityTag owner) k)).map hash,
        (44 : Nat) ∉ x := by
    intro x hx
    obtain ⟨y, hy, rfl⟩ := List.mem_map.mp hx
    obtain ⟨k, hk2, rfl⟩ := List.mem_map.mp hy
    exact (hR k hk2).2.1
  have hl45 : (45 : Nat) ∉ joinComma ((k0 :: kt).map hash) :=
    not_mem_joinComma (by decide) hlmem
  have hr45 :
      (45 : Nat) ∉
        joinComma (((k0 :: kt).map (fun k => xorBytes (identityTag owner) k)).map hash) :=
    not_mem_joinComma (by decide) hrmem
  have hstring :
      (mkCoin owner amount guid sig (k0 :: kt) hash).coinString =
        BANK_STR ++ 45 :: (amount ++ 45 :: (guid ++ 45 ::
          (joinComma ((k0 :: kt).map hash) ++ 45 ::
            joinComma (((k0 :: kt).map (fun k => xorBytes (identityTag owner) k)).map hash)))) := rfl
  have hsplit :
      splitOnByte 45 (mkCoin owner amount guid sig (k0 :: kt) hash).coinString =
        [BANK_STR, amount, guid, joinComma ((k0 :: kt).map hash),
          joinComma (((k0 :: kt).map (fun k => xorBytes (identityTag owner) k)).map hash)] := by
    rw [hstring, splitOnByte_append _ _ hb45, splitOnByte_append _ _ ha,
      splitOnByte_append _ _ hg, splitOnByte_append _ _ hl45,
      splitOnByte_not_mem hr45]
  have hlne : joinComma ((k0 :: kt).map hash) ≠ [] := by
    rw [List.map_cons]
    exact joinComma_cons_ne_nil (hL k0 (List.mem_cons_self _ _)).1 _
  have hrne :
      joinComma (((k0 :: kt).map (fun k => xorBytes (identityTag owner) k)).map hash) ≠ [] := by
    rw [List.map_cons, List.map_cons]
    exact joinComma_cons_ne_nil (hR k0 (List.mem_cons_self _ _)).1 _
  simp only [parseCoin, hsplit, List.getD_cons_zero, List.get?]
  rw [if_true, if_neg hlne, if_neg hrne,
    splitOnByte_joinComma (by simp) hlmem44,
    splitOnByte_joinComma (by simp) hrmem44]

theorem acceptCoinT_mkCoin (owner amount guid sig : Bytes) (keys : List Bytes)
    (hash : Bytes → Bytes) (verify : Bytes → Bytes → Bool) (b : Bool)
    (hv : verify sig (mkCoin owner amount guid sig keys hash).coinString = true)
    (hkl : keys.length = COIN_RIS_LENGTH)
    (hkey : ∀ k ∈ keys, k.length = (identityTag owner).length)
    (ha : (45 : Nat) ∉ amount) (hg : (45 : Nat) ∉ guid)
    (hL : ∀ k ∈ keys, hash k ≠ [] ∧ (44 : Nat) ∉ hash k ∧ (45 : Nat) ∉ hash k)
    (hR : ∀ k ∈ keys,
      hash (xorBytes (identityTag owner) k) ≠ [] ∧
      (44 : Nat) ∉ hash (xorBytes (identityTag owner) k) ∧
      (45 : Nat) ∉ hash (xorBytes (identityTag owner) k)) :
    acceptCoinT verify hash b (mkCoin owner amount guid sig keys hash) =
      (.ok (if b then keys
            else keys.map (fun k => xorBytes (identityTag owner) k)),
       [(b, 0), (b, 1), (b, 2)]) := by
  obtain ⟨k0, k1, k2, rfl⟩ :=
    List.length_eq_three.mp (by simpa [COIN_RIS_LENGTH] using hkl)
  have htag : 0 < (identityTag owner).length := by simp [identityTag, IDENT_STR]
  have hk : [k0, k1, k2] ≠ [] := by simp
  have hneK : ∀ k ∈ [k0, k1, k2], k ≠ [] := by
    intro k hk2 hnil
    have hlen := hkey k hk2
    rw [hnil] at hlen
    simp only [List.length_nil] at hlen
    omega
  have hneR : ∀ k ∈ [k0, k1, k2], xorBytes (identityTag owner) k ≠ [] := by
    intro k hk2 hnil
    have hlen := congrArg List.length hnil
    rw [xorBytes_length, hkey k hk2, Nat.min_self] at hlen
    simp only [List.length_nil] at hlen
    omega
  have hparse := parseCoin_mkCoin owner amount guid sig [k0, k1, k2] hash ha hg hk hL hR
  have hsig : (mkCoin owner amount guid sig [k0, k1, k2] hash).signature = sig := rfl
  have hpass : ∀ i ∈ [0, 1, 2],
      sharePasses hash b (mkCoin owner amount guid sig [k0, k1, k2] hash)
        (if b then [k0, k1, k2].map hash
         else ([k0, k1, k2].map (fun k => xorBytes (identityTag owner) k)).map hash) i := by
    intro i hi
    fin_cases hi <;> cases b
    · exact ⟨xorBytes (identityTag owner) k0, rfl, hneR k0 (by simp), rfl⟩
    · exact ⟨k0, rfl, hneK k0 (by simp), rfl⟩
    · exact ⟨xorBytes (identityTag owner) k1, rfl, hneR k1 (by simp), rfl⟩
    · exact ⟨k1, rfl, hneK k1 (by simp), rfl⟩
    · exact ⟨xorBytes (identityTag owner) k2, rfl, hneR k2 (by simp), rfl⟩
    · exact ⟨k2, rfl, hneK k2 (by simp), rfl⟩
  have hcnt :
      ([k0, k1, k2].map hash).length = COIN_RIS_LENGTH ∧
      (([k0, k1, k2].map (fun k => xorBytes (identityTag owner) k)).map hash).length =
        COIN_RIS_LENGTH := by
    constructor <;> rfl
  simp only [acceptCoinT, hsig, hv, if_true, hparse]
  rw [if_pos hcnt, rangeRIS, risLoop_all_ok hash b _ _ [0, 1, 2] hpass]
  cases b <;> simp [Coin.getRis, mkCoin]

/-! Helper lemmas about the adjudicator. -/

theorem determineCheater_self (guid : Bytes) (ris : List Bytes) :
    determineCheater guid ris ris = some (.merchantCheating guid) := by
  simp [determineCheater]

theorem determineCheater_opposite_sides (guid owner : Bytes) (k0 k1 k2 : Bytes)
    (hlen0 : k0.length = (identityTag owner).length) :
    determineCheater guid [k0, k1, k2]
        [xorBytes (identityTag owner) k0, xorBytes (identityTag owner) k1,
          xorBytes (identityTag owner) k2] =
      some (.spenderCheating guid owner) ∧
    determineCheater guid
        [xorBytes (identityTag owner) k0, xorBytes (identityTag owner) k1,
          xorBytes (identityTag owner) k2] [k0, k1, k2] =
      some (.spenderCheating guid owner) := by
  cases k0 with
  | nil =>
    rw [List.length_nil] at hlen0
    have htag : 0 < (identityTag owner).length := by simp [identityTag, IDENT_STR]
    omega
  | cons v vs =>
    have hm :
        joinComma [v :: vs, k1, k2] ≠
        joinComma [xorBytes (identityTag owner) (v :: vs),
          xorBytes (identityTag owner) k1, xorBytes (identityTag owner) k2] := by
      intro h
      have e1 : joinComma [v :: vs, k1, k2] =
          v :: (vs ++ 44 :: joinComma [k1, k2]) := rfl
      have e2 : joinComma [xorBytes (identityTag owner) (v :: vs),
          xorBytes (identityTag owner) k1, xorBytes (identityTag owner) k2] =
          (73 ^^^ v) :: (xorBytes ([68, 69, 78, 84] ++ 58 :: owner) vs ++
            44 :: joinComma [xorBytes (identityTag owner) k1,
              xorBytes (identityTag owner) k2]) := rfl
      rw [e1, e2] at h
      exact xor_ne_of_ne_zero (by decide) v ((List.cons.injEq _ _ _ _).mp h).1.symm
    have hx : xorBytes (v :: vs) (xorBytes (identityTag owner) (v :: vs)) =
        identityTag owner := xorBytes_cancel (v :: vs) (identityTag owner) hlen0
    have hscan : scanXor [v :: vs, k1, k2]
        [xorBytes (identityTag owner) (v :: vs), xorBytes (identityTag owner) k1,
          xorBytes (identityTag owner) k2] [0, 1, 2] = some (some owner) := by
      simp only [scanXor, List.get?, hx, identityTag_isPrefixOf,
        identityTag_marker_drop]
      simp
    have hx2 : xorBytes (xorBytes (identityTag owner) (v :: vs)) (v :: vs) =
        identityTag owner := by
      rw [xorBytes_comm]
      exact hx
    have hscan2 : scanXor
        [xorBytes (identityTag owner) (v :: vs), xorBytes (identityTag owner) k1,
          xorBytes (identityTag owner) k2] [v :: vs, k1, k2] [0, 1, 2] =
        some (some owner) := by
      simp only [scanXor, List.get?, hx2, identityTag_isPrefixOf,
        identityTag_marker_drop]
      simp
    constructor
    · simp only [determineCheater, if_neg hm, rangeRIS, hscan]
    · simp only [determineCheater, if_neg (Ne.symm hm), rangeRIS, hscan2]

theorem acceptCoinT_sigfail (verify : Bytes → Bytes → Bool)
    (hash : Bytes → Bytes) (b : Bool) (c : Coin)
    (hv : verify c.signature c.coinString = false) :
    acceptCoinT verify hash b c = (.error .invalidSignature, []) := by
  simp [acceptCoinT, hv]

/-! The claims. -/

/-- C2 (corrected): the adjudicator reports MerchantCheating exactly when the
comma-joined renderings of the two RIS sequences are equal; element-wise
equal sequences always give MerchantCheating, but join-equality is coarser
than element-wise equality. -/
theorem determineCheater_merchant_iff_join_eq (guid : Bytes)
    (ris1 ris2 : List Bytes) :
    (determineCheater guid ris1 ris2 = some (.merchantCheating guid) ↔
      joinComma ris1 = joinComma ris2) ∧
    (ris1 = ris2 →
      determineCheater guid ris1 ris2 = some (.merchantCheating guid)) := by
  constructor
  · constructor
    · intro h
      by_contra hne
      rw [determineCheater, if_neg hne] at h
      cases hs : scanXor ris1 ris2 (List.range COIN_RIS_LENGTH) with
      | none => rw [hs] at h; simp at h
      | some o =>
        cases o with
        | none => rw [hs] at h; simp at h
        | some ident => rw [hs] at h; simp at h
    · intro h
      rw [determineCheater, if_pos h]
  · intro h
    rw [h]
    exact determineCheater_self guid ris2

/-- C2 witness: identical one-element sequences are reported as merchant
cheating. -/
theorem determineCheater_merchant_iff_join_eq_witness :
    determineCheater [] [[1]] [[1]] = some (.merchantCheating []) :=
  (determineCheater_merchant_iff_join_eq [] [[1]] [[1]]).2 rfl

/-- C2 counterexample: the sequences 97 / 98 / 99 and 97,98 / 99 are not
element-wise equal (they do not even have the same length), yet their
comma-joins coincide and the adjudicator reports MerchantCheating. -/
theorem merchant_join_counterexample :
    determineCheater [] [[97], [98], [99]] [[97, 44, 98], [99]] =
      some (.merchantCheating []) ∧
    [[97], [98], [99]] ≠ ([[97, 44, 98], [99]] : List Bytes) := by
  exact ⟨by decide, by decide⟩

/-- C5 (confirmed): when the blind-signature verification of the coin comes
back false, acceptance stops with the invalid-signature error and the share
request trace is empty: no share was requested or revealed. -/
theorem acceptCoin_invalid_signature_first (verify : Bytes → Bytes → Bool)
    (hash : Bytes → Bytes) (b : Bool) (c : Coin)
    (hv : verify c.signature c.coinString = false) :
    acceptCoinT verify hash b c = (.error .invalidSignature, []) :=
  acceptCoinT_sigfail verify hash b c hv

/-- C5 witness: a verifier that always rejects makes acceptance fail with
the invalid-signature error and no share requests, on the empty coin. -/
theorem acceptCoin_invalid_signature_first_witness :
    acceptCoinT (fun _ _ => false) (fun _ => []) true emptyCoin =
      (.error .invalidSignature, []) :=
  acceptCoin_invalid_signature_first (fun _ _ => false) (fun _ => []) true
    emptyCoin rfl

/-- C6 (confirmed): parsing throws the invalid-tag error (carrying the
received tag) whenever the leading dash-separated field differs from the
bank tag, and acceptance throws the hash-count error whenever a re-derived
hash sequence does not have length COIN_RIS_LENGTH. -/
theorem parse_and_count_rejection :
    (∀ s : Bytes, (splitOnByte 45 s).getD 0 [] ≠ BANK_STR →
      parseCoin s = .error ((splitOnByte 45 s).getD 0 [])) ∧
    (∀ (verify : Bytes → Bytes → Bool) (hash : Bytes → Bytes) (b : Bool)
        (c : Coin) (lh rh : List Bytes),
      verify c.signature c.coinString = true →
      parseCoin c.coinString = .ok (lh, rh) →
      (lh.length ≠ COIN_RIS_LENGTH ∨ rh.length ≠ COIN_RIS_LENGTH) →
      acceptCoin verify hash b c = .error (.badHashCount lh.length rh.length)) := by
  constructor
  · intro s h
    simp only [parseCoin]
    rw [if_neg h]
  · intro verify hash b c lh rh hv hp hcnt
    have hc : ¬(lh.length = COIN_RIS_LENGTH ∧ rh.length = COIN_RIS_LENGTH) := by
      rcases hcnt with h | h
      · exact fun hand => h hand.1
      · exact fun hand => h hand.2
    simp only [acceptCoin, acceptCoinT, hv, if_true, hp]
    rw [if_neg hc]

/-- C6 witness: the string consisting of the byte 88 is rejected with its
own leading field, and a coin whose canonical string is just the bank tag
parses to two empty hash lists and is rejected by the count check. -/
theorem parse_and_count_rejection_witness :
    parseCoin [88] = .error [88] ∧
    acceptCoin (fun _ _ => true) (fun _ => []) true bankCoin =
      .error (.badHashCount 0 0) := by
  constructor
  · exact parse_and_count_rejection.1 [88] (by decide)
  · exact parse_and_count_rejection.2 (fun _ _ => true) (fun _ => []) true
      bankCoin [] [] rfl rfl (Or.inl (by decide))

/-- C8 (confirmed): a successful acceptance returns exactly COIN_RIS_LENGTH
shares, and the share at each position is the coin share of the single
challenged side at that index, in order. -/
theorem acceptCoin_single_side (verify : Bytes → Bytes → Bool)
    (hash : Bytes → Bytes) (b : Bool) (c : Coin) (ris : List Bytes)
    (h : acceptCoin verify hash b c = .ok ris) :
    ris.length = COIN_RIS_LENGTH ∧
    ∀ i, i < COIN_RIS_LENGTH → ris.get? i = c.getRis b i := by
  cases hv : verify c.signature c.coinString with
  | false =>
    rw [acceptCoin, acceptCoinT_sigfail verify hash b c hv] at h
    simp at h
  | true =>
    simp only [acceptCoin, acceptCoinT, hv, if_true] at h
    cases hp : parseCoin c.coinString with
    | error t => simp only [hp] at h; simp at h
    | ok pr =>
      obtain ⟨lh, rh⟩ := pr
      simp only [hp] at h
      by_cases hcnt : lh.length = COIN_RIS_LENGTH ∧ rh.length = COIN_RIS_LENGTH
      · rw [if_pos hcnt, rangeRIS] at h
        obtain ⟨hlen, hidx⟩ := risLoop_ok_inv hash b c _ [0, 1, 2] ris h
        refine ⟨by rw [hlen]; rfl, ?_⟩
        intro i hi
        have hi3 : i < 3 := hi
        interval_cases i
        · exact hidx 0 0 rfl
        · exact hidx 1 1 rfl
        · exact hidx 2 2 rfl
      · rw [if_neg hcnt] at h
        simp at h

/-- C8 witness: the honest left-side acceptance of the ground coin returns
the three left shares in order. -/
theorem acceptCoin_single_side_witness :
    keysW.length = COIN_RIS_LENGTH ∧
    ∀ i, i < COIN_RIS_LENGTH → keysW.get? i = coinW.getRis true i :=
  acceptCoin_single_side (fun _ _ => true) hashW true coinW keysW rfl

/-- C9 (confirmed): the adjudicator is a pure function of guid and the two
RIS sequences: equal inputs give equal outcomes; the embedding passes all
state by value, mirroring the source, which reads its arguments and draws
no randomness. -/
theorem determineCheater_deterministic (g g2 : Bytes)
    (r1 r1b r2 r2b : List Bytes)
    (hg : g = g2) (h1 : r1 = r1b) (h2 : r2 = r2b) :
    determineCheater g r1 r2 = determineCheater g2 r1b r2b := by
  rw [hg, h1, h2]

/-- C9 witness: the adjudicator agrees with itself on concrete inputs. -/
theorem determineCheater_deterministic_witness :
    determineCheater [] [[1]] [[2]] = determineCheater [] [[1]] [[2]] :=
  determineCheater_deterministic [] [] [[1]] [[1]] [[2]] [[2]] rfl rfl rfl

/-- C10 (confirmed): when the leading field matches the bank tag, parsing
never throws; a missing or empty hash segment becomes an empty array, with
rejection deferred to the later length check of acceptance. -/
theorem parseCoin_missing_segments (s : Bytes)
    (ht : (splitOnByte 45 s).getD 0 [] = BANK_STR) :
    ∃ lh rh, parseCoin s = .ok (lh, rh) ∧
      (((splitOnByte 45 s).get? 3 = none ∨
        (splitOnByte 45 s).get? 3 = some []) → lh = []) ∧
      (((splitOnByte 45 s).get? 4 = none ∨
        (splitOnByte 45 s).get? 4 = some []) → rh = []) := by
  have hp : parseCoin s = .ok
      (match (splitOnByte 45 s).get? 3 with
        | none => []
        | some f => if f = [] then [] else splitOnByte 44 f,
       match (splitOnByte 45 s).get? 4 with
        | none => []
        | some f => if f = [] then [] else splitOnByte 44 f) := by
    simp only [parseCoin]
    rw [if_pos ht]
  refine ⟨_, _, hp, ?_, ?_⟩
  · rintro (h | h)
    · rw [h]
    · rw [h]; simp
  · rintro (h | h)
    · rw [h]
    · rw [h]; simp

/-- C10 witness: a coin string with only three fields parses to two empty
hash arrays. -/
theorem parseCoin_missing_segments_witness :
    ∃ lh rh, parseCoin (BANK_STR ++ [45, 53, 45, 103]) = .ok (lh, rh) ∧
      (((splitOnByte 45 (BANK_STR ++ [45, 53, 45, 103])).get? 3 = none ∨
        (splitOnByte 45 (BANK_STR ++ [45, 53, 45, 103])).get? 3 = some []) →
        lh = []) ∧
      (((splitOnByte 45 (BANK_STR ++ [45, 53, 45, 103])).get? 4 = none ∨
        (splitOnByte 45 (BANK_STR ++ [45, 53, 45, 103])).get? 4 = some []) →
        rh = []) :=
  parseCoin_missing_segments (BANK_STR ++ [45, 53, 45, 103]) (by decide)

/-- C4 (confirmed): an honest acceptance run on a freshly constructed,
correctly signed coin succeeds for either random side, returns exactly
COIN_RIS_LENGTH shares, and the hashes of the returned shares are exactly
the commitments of the chosen side re-derived by parsing the canonical
string.  The side conditions say that the keys have the tag length and that
the digests are nonempty and delimiter-free, as the spec requires of the
hash primitive. -/
theorem acceptCoin_honest_ok (owner amount guid sig : Bytes)
    (keys : List Bytes) (hash : Bytes → Bytes) (verify : Bytes → Bytes → Bool)
    (b : Bool)
    (hv : verify sig (mkCoin owner amount guid sig keys hash).coinString = true)
    (hkl : keys.length = COIN_RIS_LENGTH)
    (hkey : ∀ k ∈ keys, k.length = (identityTag owner).length)
    (ha : (45 : Nat) ∉ amount) (hg : (45 : Nat) ∉ guid)
    (hL : ∀ k ∈ keys, hash k ≠ [] ∧ (44 : Nat) ∉ hash k ∧ (45 : Nat) ∉ hash k)
    (hR : ∀ k ∈ keys,
      hash (xorBytes (identityTag owner) k) ≠ [] ∧
      (44 : Nat) ∉ hash (xorBytes (identityTag owner) k) ∧
      (45 : Nat) ∉ hash (xorBytes (identityTag owner) k)) :
    ∃ ris lh rh,
      acceptCoin verify hash b (mkCoin owner amount guid sig keys hash) =
        .ok ris ∧
      parseCoin (mkCoin owner amount guid sig keys hash).coinString =
        .ok (lh, rh) ∧
      ris.length = COIN_RIS_LENGTH ∧
      ris.map hash = (if b then lh else rh) := by
  have hk : keys ≠ [] := by
    intro h
    rw [h] at hkl
    simp [COIN_RIS_LENGTH] at hkl
  refine ⟨if b then keys else keys.map (fun k => xorBytes (identityTag owner) k),
    keys.map hash, (keys.map (fun k => xorBytes (identityTag owner) k)).map hash,
    ?_, parseCoin_mkCoin owner amount guid sig keys hash ha hg hk hL hR, ?_, ?_⟩
  · rw [acceptCoin,
      acceptCoinT_mkCoin owner amount guid sig keys hash verify b hv hkl hkey
        ha hg hL hR]
  · cases b <;> simp [hkl]
  · cases b <;> rfl

/-- C4 witness: the ground coin is accepted on the left side with three
shares hashing to the left commitments. -/
theorem acceptCoin_honest_ok_witness :
    ∃ ris lh rh,
      acceptCoin (fun _ _ => true) hashW true coinW = .ok ris ∧
      parseCoin coinW.coinString = .ok (lh, rh) ∧
      ris.length = COIN_RIS_LENGTH ∧
      ris.map hashW = (if true then lh else rh) :=
  acceptCoin_honest_ok ownerW [50, 48] [103, 49] [1, 2] keysW hashW
    (fun _ _ => true) true rfl rfl (by decide) (by decide) (by decide)
    (by decide) (by decide)

/-- C7 (corrected → amended): when the first failing index of the RIS loop
fails because the revealed share hashes differently from the selected
commitment, acceptance throws the hash-mismatch error whose payload is the
offending index together with the expected and the computed hash values;
the challenged side is not part of the payload. -/
theorem acceptCoin_hash_mismatch_error (verify : Bytes → Bytes → Bool)
    (hash : Bytes → Bytes) (b : Bool) (c : Coin) (lh rh : List Bytes)
    (i : Nat) (p : Bytes)
    (hv : verify c.signature c.coinString = true)
    (hp : parseCoin c.coinString = .ok (lh, rh))
    (hcnt : lh.length = COIN_RIS_LENGTH ∧ rh.length = COIN_RIS_LENGTH)
    (hi : i < COIN_RIS_LENGTH)
    (hprev : ∀ j, j < i → sharePasses hash b c (if b then lh else rh) j)
    (hshare : c.getRis b i = some p) (hpne : p ≠ [])
    (hmis : hash p ≠ (if b then lh else rh).getD i []) :
    acceptCoin verify hash b c =
      .error (.risHashMismatch i ((if b then lh else rh).getD i []) (hash p)) := by
  simp only [acceptCoin, acceptCoinT, hv, if_true, hp]
  rw [if_pos hcnt, rangeRIS]
  have hi3 : i < 3 := hi
  interval_cases i
  · exact risLoop_fail hash b c _ hshare hpne hmis [] [1, 2] (by simp)
  · refine risLoop_fail hash b c _ hshare hpne hmis [0] [2] ?_
    intro j hj
    have : j = 0 := by simpa using hj
    exact this ▸ hprev 0 (by omega)
  · refine risLoop_fail hash b c _ hshare hpne hmis [0, 1] [] ?_
    intro j hj
    rcases (by simpa using hj : j = 0 ∨ j = 1) with rfl | rfl
    · exact hprev 0 (by omega)
    · exact hprev 1 (by omega)

/-- C7 witness: under `hashShift` the mismatch coin passes index 0 and fails
index 1 with the error payload naming index 1 with expected 200 and got 106. -/
theorem acceptCoin_hash_mismatch_error_witness :
    acceptCoin (fun _ _ => true) hashShift true mismatchCoin =
      .error (.risHashMismatch 1 [200] [106]) :=
  acceptCoin_hash_mismatch_error (fun _ _ => true) hashShift true mismatchCoin
    [[105], [200], [107]] [[105], [200], [107]] 1 [6] rfl rfl (by decide)
    (by decide)
    (fun j hj => by
      have : j = 0 := by omega
      exact this ▸ ⟨[5], rfl, by decide, rfl⟩)
    rfl (by decide) (by decide)

/-- C7 counterexample: the thrown hash-mismatch error does not name the
challenged side: challenging the left and the right side of the same coin
produces the identical error value, so the message cannot identify the
side. -/
theorem risHashMismatch_side_counterexample :
    acceptCoin (fun _ _ => true) (fun _ => [48]) true sideCoin =
      .error (.risHashMismatch 0 [49] [48]) ∧
    acceptCoin (fun _ _ => true) (fun _ => [48]) false sideCoin =
      .error (.risHashMismatch 0 [49] [48]) :=
  ⟨rfl, rfl⟩

/-- C1 (corrected → amended): when the two RIS sequences have full length
and distinct comma-joins, the adjudicator stops at the first index whose
XOR starts with the bare marker IDENT_STR (not the full marker plus
delimiter) and reports SpenderCheating with the XOR result shortened by the
marker length plus one; whenever that XOR result is an actual identity tag
this shortened value is exactly the spender identity. -/
theorem determineCheater_spender_first_marker_index (guid : Bytes)
    (ris1 ris2 : List Bytes)
    (h1 : ris1.length = COIN_RIS_LENGTH) (h2 : ris2.length = COIN_RIS_LENGTH)
    (hm : joinComma ris1 ≠ joinComma ris2) (i : Nat) (hi : i < COIN_RIS_LENGTH)
    (hp : IDENT_STR.isPrefixOf (xorBytes (ris1.getD i []) (ris2.getD i [])) = true)
    (hfirst : ∀ j, j < i →
      IDENT_STR.isPrefixOf (xorBytes (ris1.getD j []) (ris2.getD j [])) = false) :
    determineCheater guid ris1 ris2 =
      some (.spenderCheating guid
        ((xorBytes (ris1.getD i []) (ris2.getD i [])).drop
          (IDENT_STR.length + 1))) ∧
    ∀ ident, xorBytes (ris1.getD i []) (ris2.getD i []) = identityTag ident →
      (xorBytes (ris1.getD i []) (ris2.getD i [])).drop (IDENT_STR.length + 1) =
        ident := by
  refine ⟨?_, ?_⟩
  · obtain ⟨a1, b1, c1, rfl⟩ :=
      List.length_eq_three.mp (by simpa [COIN_RIS_LENGTH] using h1)
    obtain ⟨a2, b2, c2, rfl⟩ :=
      List.length_eq_three.mp (by simpa [COIN_RIS_LENGTH] using h2)
    simp only [determineCheater, if_neg hm, rangeRIS]
    have hi3 : i < 3 := hi
    interval_cases i
    · have hp0 : IDENT_STR.isPrefixOf (xorBytes a1 a2) = true := hp
      simp [scanXor, List.get?, hp0]
    · have hf0 : IDENT_STR.isPrefixOf (xorBytes a1 a2) = false :=
        hfirst 0 (by omega)
      have hp1 : IDENT_STR.isPrefixOf (xorBytes b1 b2) = true := hp
      simp [scanXor, List.get?, hf0, hp1]
    · have hf0 : IDENT_STR.isPrefixOf (xorBytes a1 a2) = false :=
        hfirst 0 (by omega)
      have hf1 : IDENT_STR.isPrefixOf (xorBytes b1 b2) = false :=
        hfirst 1 (by omega)
      have hp2 : IDENT_STR.isPrefixOf (xorBytes c1 c2) = true := hp
      simp [scanXor, List.get?, hf0, hf1, hp2]
  · intro ident h
    rw [h]
    exact identityTag_marker_drop ident

/-- C1 witness: a pair whose index-0 XOR is the identity tag of the empty
identity is adjudicated as spender cheating with that identity. -/
theorem determineCheater_spender_first_marker_index_witness :
    determineCheater [9] [[0, 0, 0, 0, 0, 0], [1], [2]]
      [[73, 68, 69, 78, 84, 58], [1], [2]] =
      some (.spenderCheating [9] []) :=
  (determineCheater_spender_first_marker_index [9]
    [[0, 0, 0, 0, 0, 0], [1], [2]] [[73, 68, 69, 78, 84, 58], [1], [2]]
    rfl rfl (by decide) 0 (by decide) (by decide)
    (fun j hj => absurd hj (by omega))).1

/-- C1 counterexample: reading the claim with its own definition of the
fixed part of the identity tag (marker plus delimiter, `tagMarker`), the
first index whose XOR starts with the full tag head is index 1 with
remainder the byte 98, yet the adjudicator already fires at index 0 (whose
XOR starts with the bare marker but not with the delimiter) and reports the
empty identity instead. -/
theorem scan_marker_counterexample :
    joinComma [[0, 0, 0, 0, 0, 0], [0, 0, 0, 0, 0, 0, 0], [1]] ≠
      joinComma [[73, 68, 69, 78, 84, 88], [73, 68, 69, 78, 84, 58, 98], [1]] ∧
    tagMarker.isPrefixOf
      (xorBytes [0, 0, 0, 0, 0, 0, 0] [73, 68, 69, 78, 84, 58, 98]) = true ∧
    tagMarker.isPrefixOf
      (xorBytes [0, 0, 0, 0, 0, 0] [73, 68, 69, 78, 84, 88]) = false ∧
    (xorBytes [0, 0, 0, 0, 0, 0, 0] [73, 68, 69, 78, 84, 58, 98]).drop
      tagMarker.length = [98] ∧
    determineCheater [7] [[0, 0, 0, 0, 0, 0], [0, 0, 0, 0, 0, 0, 0], [1]]
      [[73, 68, 69, 78, 84, 88], [73, 68, 69, 78, 84, 58, 98], [1]] =
      some (.spenderCheating [7] []) ∧
    (some (Verdict.spenderCheating [7] []) : Option Verdict) ≠
      some (.spenderCheating [7] [98]) := by
  decide

/-- C3 (corrected → amended): for a coin honestly built for an owner, two
acceptance runs adjudicate to SpenderCheating with exactly the owner
identity when the two random draws chose different sides, and to
MerchantCheating (identical revealed sequences) when they chose the same
side; Inconclusive is impossible here and a wrong identity is never
reported. -/
theorem adjudicator_double_spend_outcome (owner amount guid sig : Bytes)
    (keys : List Bytes) (hash : Bytes → Bytes) (verify : Bytes → Bytes → Bool)
    (b1 b2 : Bool) (ris1 ris2 : List Bytes)
    (hv : verify sig (mkCoin owner amount guid sig keys hash).coinString = true)
    (hkl : keys.length = COIN_RIS_LENGTH)
    (hkey : ∀ k ∈ keys, k.length = (identityTag owner).length)
    (ha : (45 : Nat) ∉ amount) (hg : (45 : Nat) ∉ guid)
    (hL : ∀ k ∈ keys, hash k ≠ [] ∧ (44 : Nat) ∉ hash k ∧ (45 : Nat) ∉ hash k)
    (hR : ∀ k ∈ keys,
      hash (xorBytes (identityTag owner) k) ≠ [] ∧
      (44 : Nat) ∉ hash (xorBytes (identityTag owner) k) ∧
      (45 : Nat) ∉ hash (xorBytes (identityTag owner) k))
    (hr1 : acceptCoin verify hash b1 (mkCoin owner amount guid sig keys hash) =
      .ok ris1)
    (hr2 : acceptCoin verify hash b2 (mkCoin owner amount guid sig keys hash) =
      .ok ris2) :
    determineCheater guid ris1 ris2 =
      some (if b1 = b2 then Verdict.merchantCheating guid
            else Verdict.spenderCheating guid owner) := by
  rw [acceptCoin,
    acceptCoinT_mkCoin owner amount guid sig keys hash verify b1 hv hkl hkey
      ha hg hL hR] at hr1
  rw [acceptCoin,
    acceptCoinT_mkCoin owner amount guid sig keys hash verify b2 hv hkl hkey
      ha hg hL hR] at hr2
  simp only [Except.ok.injEq] at hr1 hr2
  obtain ⟨k0, k1, k2, rfl⟩ :=
    List.length_eq_three.mp (by simpa [COIN_RIS_LENGTH] using hkl)
  have hlen0 : k0.length = (identityTag owner).length := hkey k0 (by simp)
  subst hr1
  subst hr2
  cases b1 <;> cases b2 <;> simp only [if_true, if_false, List.map_cons,
    List.map_nil]
  · exact determineCheater_self guid _
  · have h := (determineCheater_opposite_sides guid owner k0 k1 k2 hlen0).2
    simpa using h
  · have h := (determineCheater_opposite_sides guid owner k0 k1 k2 hlen0).1
    simpa using h
  · exact determineCheater_self guid _

/-- C3 witness: on the ground coin, a left run and a right run adjudicate
to spender cheating naming alice. -/
theorem adjudicator_double_spend_outcome_witness :
    determineCheater [103, 49] keysW rightW =
      some (.spenderCheating [103, 49] ownerW) :=
  adjudicator_double_spend_outcome ownerW [50, 48] [103, 49] [1, 2] keysW
    hashW (fun _ _ => true) true false keysW rightW rfl rfl (by decide)
    (by decide) (by decide) (by decide) (by decide) rfl rfl

/-- C3 counterexample: when both acceptance runs draw the same side the two
RIS sequences are identical and the adjudicator reports MerchantCheating,
which is neither SpenderCheating with the owner identity nor Inconclusive. -/
theorem adjudicator_same_side_counterexample :
    acceptCoin (fun _ _ => true) hashW true coinW = .ok keysW ∧
    determineCheater [103, 49] keysW keysW =
      some (.merchantCheating [103, 49]) ∧
    (some (Verdict.merchantCheating [103, 49]) : Option Verdict) ≠
      some (.spenderCheating [103, 49] ownerW) ∧
    (some (Verdict.merchantCheating [103, 49]) : Option Verdict) ≠
      some (.inconclusive [103, 49]) := by
  exact ⟨rfl, by decide, by decide, by decide⟩

end ECash
